import Mathlib

/-!
Verification of the time-series read/resample/extrapolate engine
implemented in ivis/ts/_rw.py.

The Python source is shallowly embedded below: pure functions become Lean
functions on lists of rationals, the stateful readers become explicit
state-passing functions, fallible operations return Option or Except, and
the unbounded while-loops are modelled with explicit fuel mirroring the
number of iterations the Python loop performs.
-/

/- ---------------------------------------------------------------------
   Future Timestamp Generator: class TsDelta.
   Timestamps and durations are modelled as rationals (seconds).
--------------------------------------------------------------------- -/

/-- Embedding of class TsDelta: the constructor sets valid := False and
stores the last timestamp and the delta. -/
structure TsDelta where
  valid : Bool
  last_ts : ℚ
  delta_time : ℚ
deriving DecidableEq

/-- Embedding of TsDelta._next_ts. -/
def TsDelta.next_ts (d : TsDelta) : ℚ := d.last_ts + d.delta_time

/-- Embedding of TsDelta.peek: the method returns a value and performs no
assignment, so the post-state equals the pre-state. -/
def TsDelta.peek (d : TsDelta) : ℚ × TsDelta := (d.next_ts, d)

/-- Embedding of TsDelta.read: commits the next timestamp as last_ts and
returns it. -/
def TsDelta.read (d : TsDelta) : ℚ × TsDelta :=
  (d.next_ts, { d with last_ts := d.next_ts })

/-- Embedding of TsDelta.set_latest. -/
def TsDelta.set_latest (d : TsDelta) (latest_ts : ℚ) : TsDelta :=
  { d with last_ts := latest_ts }

/-- Embedding of TsDelta.copy: builds TsDelta(self.last_ts, self.delta_time),
whose constructor resets valid to False. -/
def TsDelta.copy (d : TsDelta) : TsDelta := ⟨false, d.last_ts, d.delta_time⟩

/- ---------------------------------------------------------------------
   Interval Parser: logical_delta.
   pendulum.Duration is modelled by its exact millisecond part plus the
   calendar-relative month and year parts, which pendulum keeps separate.
--------------------------------------------------------------------- -/

/-- Model of a pendulum Duration: exact milliseconds plus calendar-relative
months and years, kept as distinct fields as pendulum does. -/
structure PDuration where
  milliseconds : Nat
  months : Nat
  years : Nat
deriving DecidableEq

/-- Scalar multiplication int * Duration, which scales every component. -/
def PDuration.scale (n : Nat) (d : PDuration) : PDuration :=
  ⟨n * d.milliseconds, n * d.months, n * d.years⟩

/-- Embedding of the intervals dict in logical_delta; a missing key is a
KeyError, modelled as none. -/
def intervals : String → Option PDuration
  | "ms" => some ⟨1, 0, 0⟩
  | "s" => some ⟨1000, 0, 0⟩
  | "m" => some ⟨60000, 0, 0⟩
  | "h" => some ⟨3600000, 0, 0⟩
  | "d" => some ⟨86400000, 0, 0⟩
  | "M" => some ⟨0, 1, 0⟩
  | "q" => some ⟨0, 3, 0⟩
  | "y" => some ⟨0, 0, 1⟩
  | _ => none

/-- Value of int(s) on a nonempty string of decimal digits. -/
def natOfDigits (cs : List Char) : Nat :=
  cs.foldl (fun a c => 10 * a + (c.toNat - 48)) 0

/-- Embedding of logical_delta: digits concatenated in encounter order form
the magnitude, non-digits concatenated in encounter order form the marker;
int of an empty string raises ValueError and an unrecognized marker raises
KeyError re-raised as ValueError, both modelled as none. -/
def logical_delta (interval : String) : Option PDuration :=
  let num := interval.data.filter (fun c => c.isDigit)
  let marker := interval.data.filter (fun c => !c.isDigit)
  if num.isEmpty then none
  else
    match intervals (String.mk marker) with
    | some d => some (PDuration.scale (natOfDigits num) d)
    | none => none

/- ---------------------------------------------------------------------
   Paged Range Reader: TsReader._read.
   A row of the store is a (timestamp, value) pair of rationals; the
   elasticsearch slice query s[i*batch : (i+1)*batch].execute() is an
   abstract page-fetch function that may fail.
--------------------------------------------------------------------- -/

/-- Fixed page size batch_size = 10000 used by TsReader._read. -/
def batch_size : Nat := 10000

/-- The slice rows[i*b : (i+1)*b] of the ordered result set of a search. -/
def page_of (rows : List (ℚ × ℚ)) (b i : Nat) : List (ℚ × ℚ) :=
  (rows.drop (i * b)).take b

/-- The gt high-water-mark filter applied by TsReader._read when latest_ts
is set. -/
def hwm_filtered (store : List (ℚ × ℚ)) (latest : Option ℚ) : List (ℚ × ℚ) :=
  match latest with
  | none => store
  | some l => store.filter (fun r => decide (l < r.1))

/-- Embedding of the pagination while-loop of TsReader._read: fetch i models
the page request for slice i and may fail; each page appends its timestamps
and its values and the loop breaks when a page has fewer rows than the page
size. The result also counts the page requests issued. Fuel bounds the
number of iterations modelled; none means the fuel ran out before the loop
broke. -/
def ts_read_go (fetch : Nat → Except Unit (List (ℚ × ℚ))) (b : Nat) :
    Nat → Nat → Option (Except Unit (List ℚ × List ℚ × Nat))
  | 0, _ => none
  | fuel + 1, i =>
    match fetch i with
    | .error e => some (.error e)
    | .ok res =>
      if res.length < b then
        some (.ok (res.map Prod.fst, res.map Prod.snd, 1))
      else
        match ts_read_go fetch b fuel (i + 1) with
        | none => none
        | some (.error e) => some (.error e)
        | some (.ok (ts, vs, n)) =>
          some (.ok (res.map Prod.fst ++ ts, res.map Prod.snd ++ vs, n + 1))

/-- Embedding of TsReader._read around the loop: when the loop succeeds and
returned at least one timestamp, set_latest(timestamps[-1]) runs; when a
page request raises, the exception propagates and the reader state is left
exactly as it was. -/
def ts_reader_read (fetch : Nat → Except Unit (List (ℚ × ℚ))) (fuel : Nat)
    (latest : Option ℚ) :
    Option (Except Unit (List ℚ × List ℚ × Nat) × Option ℚ) :=
  match ts_read_go fetch batch_size fuel 0 with
  | none => none
  | some (.error e) => some (.error e, latest)
  | some (.ok (ts, vs, n)) =>
    some (.ok (ts, vs, n), if h : ts = [] then latest else some (ts.getLast h))

/-- A store that serves page i as the i-th slice of its rows, after the
high-water-mark filter. -/
def honest_fetch (store : List (ℚ × ℚ)) (latest : Option ℚ) :
    Nat → Except Unit (List (ℚ × ℚ)) :=
  fun i => .ok (page_of (hwm_filtered store latest) batch_size i)

/-- The pagination loop run against an unfiltered honest store with enough
fuel for all its pages. -/
def ts_read_slices (rows : List (ℚ × ℚ)) :
    Option (Except Unit (List ℚ × List ℚ × Nat)) :=
  ts_read_go (fun i => .ok (page_of rows batch_size i)) batch_size
    (rows.length / batch_size + 1) 0

/- ---------------------------------------------------------------------
   Cadence Estimator: estimate_delta.
   Timestamps are modelled by their float_timestamp value in seconds, as
   rationals; np.median sorts ascending and takes the middle element (odd
   length) or the mean of the two middle elements (even length).
--------------------------------------------------------------------- -/

/-- Model of np.median on a list of numbers: sort ascending, take the middle
element when the length is odd, the mean of the two middle elements when it
is even; the empty case (NaN in numpy) is mapped to the junk value 0. -/
def np_median (l : List ℚ) : ℚ :=
  let s := List.insertionSort (· ≤ ·) l
  if l.length % 2 = 1 then s.getD (l.length / 2) 0
  else if l.length = 0 then 0
  else (s.getD (l.length / 2 - 1) 0 + s.getD (l.length / 2) 0) / 2

/-- The consecutive differences zip(timestamps[1:], timestamps[:-1]) mapped
through x[0] - x[1], as computed in estimate_delta. -/
def diffs (l : List ℚ) : List ℚ :=
  List.zipWith (fun a b => a - b) (l.drop 1) l.dropLast

/-- Embedding of estimate_delta: timestamps[-1] raises IndexError on an
empty list (none); otherwise the timestamps are truncated to the first
sample_size entries, consecutive differences are taken, and the result
pairs the true last timestamp of the full input with the median
difference. -/
def estimate_delta (timestamps : List ℚ) (sample_size : Nat := 1000) :
    Option TsDelta :=
  match timestamps.getLast? with
  | none => none
  | some last_ts =>
    some ⟨false, last_ts, np_median (diffs (timestamps.take sample_size))⟩

/-- Arithmetic progression of n rationals starting at a with step d. -/
def arithList (a d : ℚ) (n : Nat) : List ℚ :=
  (List.range n).map (fun k : Nat => a + d * (k : ℚ))

/-- Concrete input for the cadence example: 1000 timestamps spaced 60
seconds apart with a single 180-second gap between samples 499 and 500. -/
def gap_ts : List ℚ := arithList 0 60 500 ++ arithList 30120 60 500

/- ---------------------------------------------------------------------
   Gap Interpolator: linear_interp inside TsAggReader.read.
   A bucket value is Option rationals (None is an empty bucket); Python
   list indexing wraps negative indices once, an index outside the list
   raises IndexError, and arithmetic on None raises TypeError.
--------------------------------------------------------------------- -/

/-- Python runtime errors distinguished by the interpolation routine. -/
inductive PyErr
  | typeError
  | indexError
deriving DecidableEq

/-- Python list subscription data[i]: a negative index is offset once by the
list length; a resulting index outside the range raises IndexError (none). -/
def pyGet {α : Type} (l : List α) (i : Int) : Option α :=
  if i < 0 then
    if 0 ≤ (l.length : Int) + i then l[((l.length : Int) + i).toNat]? else none
  else l[i.toNat]?

/-- The inner scan for k in range(start, len(data)) of linear_interp, which
returns the first index k with data[k] != None, or -1 when the loop falls
through; fuel counts the remaining iterations. -/
def lininterp_find (data : List (Option ℚ)) : Nat → Nat → Int
  | 0, _ => -1
  | fuel + 1, k =>
    match data[k]? with
    | some (some _) => (k : Int)
    | _ => lininterp_find data fuel (k + 1)

/-- The value j computed by the inner scan started at index start. -/
def find_nonempty (data : List (Option ℚ)) (start : Nat) : Int :=
  lininterp_find data (data.length - start) start

/-- The fill loop for m in range(i, j) of linear_interp: each step executes
data[m] = data[m - 1] + step, so reading a missing left neighbour is a
TypeError and an out-of-range read an IndexError; fuel counts the remaining
iterations. -/
def lininterp_fill (step : ℚ) :
    Nat → Nat → List (Option ℚ) → Except PyErr (List (Option ℚ))
  | 0, _, data => .ok data
  | fuel + 1, m, data =>
    match pyGet data ((m : Int) - 1) with
    | none => .error .indexError
    | some none => .error .typeError
    | some (some v) =>
      lininterp_fill step fuel (m + 1) (data.set m (some (v + step)))

/-- The fill loop run over range(i, j) with j possibly -1 (empty range). -/
def lininterp_fill_run (data : List (Option ℚ)) (i : Nat) (j : Int)
    (step : ℚ) : Except PyErr (List (Option ℚ)) :=
  lininterp_fill step (j - (i : Int)).toNat i data

/-- The outer loop for i in range(len(data)) of linear_interp: at an empty
bucket the code finds the next non-empty bucket j, reads left = data[i-1]
and right = data[j], computes step = (right - left) / (j - i + 1) (reading
left or right as None makes the subtraction a TypeError) and runs the fill
loop; fuel is the original length of data, fixed when the range object is
created. -/
def lininterp_go : Nat → Nat → List (Option ℚ) → Except PyErr (List (Option ℚ))
  | 0, _, data => .ok data
  | fuel + 1, i, data =>
    match data[i]? with
    | none => .error .indexError
    | some (some _) => lininterp_go fuel (i + 1) data
    | some none =>
      match pyGet data ((i : Int) - 1) with
      | none => .error .indexError
      | some left =>
        match pyGet data (find_nonempty data (i + 1)) with
        | none => .error .indexError
        | some right =>
          match right, left with
          | some r, some l =>
            match lininterp_fill_run data i (find_nonempty data (i + 1))
                ((r - l) / ((find_nonempty data (i + 1) : ℚ) - (i : ℚ) + 1)) with
            | .error e => .error e
            | .ok d => lininterp_go fuel (i + 1) d
          | _, _ => .error .typeError

/-- Embedding of linear_interp: run the outer loop over all initial
indices; the in-place mutation is modelled by threading the list. -/
def linear_interp (data : List (Option ℚ)) : Except PyErr (List (Option ℚ)) :=
  lininterp_go data.length 0 data

/-- Spec-side (from the specification text): the values filling a gap of
length L between present values l and r are spaced evenly with step =
(r - l) / (L + 1). -/
def seg_fill (l r : ℚ) (L : Nat) : List ℚ :=
  (List.range L).map (fun t : Nat => l + ((t : ℚ) + 1) * ((r - l) / ((L : ℚ) + 1)))

/-- Tail of a well-formed interpolation input, described by blocks: each
segment (L, v) is a run of L empty buckets closed by a present value v. -/
def buildT : List (Nat × ℚ) → List (Option ℚ)
  | [] => []
  | (L, v) :: rest => List.replicate L none ++ some v :: buildT rest

/-- A well-formed interpolation input: a present first value followed by
segments, the last of which ends in the present last value. -/
def build (v0 : ℚ) (segs : List (Nat × ℚ)) : List (Option ℚ) :=
  some v0 :: buildT segs

/-- Spec-side filled tail: every gap replaced by its evenly spaced values. -/
def fillT (l : ℚ) : List (Nat × ℚ) → List ℚ
  | [] => []
  | (L, v) :: rest => seg_fill l v L ++ v :: fillT v rest

/-- Spec-side filled sequence for a well-formed input. -/
def fillAll (v0 : ℚ) (segs : List (Nat × ℚ)) : List ℚ := v0 :: fillT v0 segs

/- ---------------------------------------------------------------------
   Bucket Resampler: read_ts_resampled2 inside TsAggReader.read.
   The store is modelled by the successive responses of the sub-range
   aggregation queries; each response is the ordered list of bucket
   timestamps the date-histogram returns (the value lists are popped and
   extended in exactly the same way, so one polymorphic loop covers both).
--------------------------------------------------------------------- -/

/-- Embedding of the stitching while-loop of read_ts_resampled2: the list
holds the successive query responses; a response with more than one bucket
has its last bucket popped (the next query restarts at that bucket) and the
loop repeats on the remaining responses; a response with zero or one
buckets is emitted exactly as returned and the loop breaks. -/
def read_ts_resampled2_loop {α : Type} : List (List α) → List α
  | [] => []
  | r :: rest =>
    if 1 < r.length then r.dropLast ++ read_ts_resampled2_loop rest else r

/- ---------------------------------------------------------------------
   Theorems for the components above.
--------------------------------------------------------------------- -/

/-- C6: peek returns lastTimestamp + delta without mutating the cursor, so
repeated peeks agree; read returns T+D then T+2D, advancing one step per
call; copy yields an independent cursor with the same last_ts and delta,
and reads on the copy and on the original return the same next value while
leaving the other cursor untouched. -/
theorem tsDelta_cursor_spec (d : TsDelta) :
    (d.peek.1 = d.last_ts + d.delta_time ∧ d.peek.2 = d ∧
      d.peek.2.peek.1 = d.peek.1) ∧
    (d.read.1 = d.last_ts + d.delta_time ∧
      (d.read.2).read.1 = d.last_ts + 2 * d.delta_time) ∧
    (d.copy.last_ts = d.last_ts ∧ d.copy.delta_time = d.delta_time ∧
      d.copy.read.1 = d.read.1 ∧
      d.copy.read.2.last_ts = d.read.2.last_ts ∧
      d.read.2.delta_time = d.delta_time) := by
  refine ⟨⟨rfl, rfl, rfl⟩, ⟨rfl, ?_⟩, ⟨rfl, rfl, rfl, rfl, rfl⟩⟩
  simp [TsDelta.read, TsDelta.next_ts]
  ring

/-- C7: parsing "15m" yields fifteen minutes, parsing "1M" yields one month,
the parser depends only on the digit characters in encounter order and the
non-digit characters in encounter order, and "1M0" parses like "10M". -/
theorem logical_delta_success_spec :
    logical_delta "15m" = some ⟨900000, 0, 0⟩ ∧
    logical_delta "1M" = some ⟨0, 1, 0⟩ ∧
    (∀ s t : String,
      s.data.filter (fun c => c.isDigit) = t.data.filter (fun c => c.isDigit) →
      s.data.filter (fun c => !c.isDigit) = t.data.filter (fun c => !c.isDigit) →
      logical_delta s = logical_delta t) ∧
    logical_delta "1M0" = logical_delta "10M" := by
  refine ⟨by decide, by decide, ?_, by decide⟩
  intro s t hd hm
  simp only [logical_delta, hd, hm]

/-- Witness for C7: the general encounter-order property applied to the
concrete interleaved string "2h3" and its rearrangement "23h". -/
theorem logical_delta_success_witness :
    logical_delta "2h3" = logical_delta "23h" :=
  logical_delta_success_spec.2.2.1 "2h3" "23h" (by decide) (by decide)

/-- C8: parsing fails when the unit marker is not recognized and when the
magnitude is absent; in particular the empty string and "abc" fail. -/
theorem logical_delta_failure_spec :
    logical_delta "" = none ∧
    logical_delta "abc" = none ∧
    (∀ s : String, s.data.filter (fun c => c.isDigit) = [] →
      logical_delta s = none) ∧
    (∀ s : String,
      intervals (String.mk (s.data.filter (fun c => !c.isDigit))) = none →
      logical_delta s = none) := by
  refine ⟨by decide, by decide, ?_, ?_⟩
  · intro s h
    simp [logical_delta, h]
  · intro s h
    simp only [logical_delta, h]
    split <;> rfl

/-- Witness for C8: the no-digits case applied to the concrete string "xy",
whose marker "xy" is also not a recognized unit. -/
theorem logical_delta_failure_witness : logical_delta "xy" = none :=
  logical_delta_failure_spec.2.2.1 "xy" (by decide)

/-- Helper: one-step unfolding of the pagination loop, kept as a standalone
equation so that rewriting never unfolds the recursive call. -/
theorem ts_read_go_succ (fetch : Nat → Except Unit (List (ℚ × ℚ)))
    (b fuel i : Nat) :
    ts_read_go fetch b (fuel + 1) i =
      match fetch i with
      | .error e => some (.error e)
      | .ok res =>
        if res.length < b then
          some (.ok (res.map Prod.fst, res.map Prod.snd, 1))
        else
          match ts_read_go fetch b fuel (i + 1) with
          | none => none
          | some (.error e) => some (.error e)
          | some (.ok (ts, vs, n)) =>
            some (.ok (res.map Prod.fst ++ ts, res.map Prod.snd ++ vs, n + 1)) :=
  rfl

/-- Helper: the pagination loop, run against slice pages of a row list with
fuel exceeding the number of full pages, returns all rows (timestamps and
values split out) and issues length / b + 1 page requests. -/
theorem ts_read_go_slices (b : Nat) (hb : 0 < b) :
    ∀ (fuel : Nat) (rows : List (ℚ × ℚ)) (i : Nat)
      (fetch : Nat → Except Unit (List (ℚ × ℚ))),
      (∀ k, fetch (i + k) = .ok (page_of rows b k)) →
      rows.length / b < fuel →
      ts_read_go fetch b fuel i =
        some (.ok (rows.map Prod.fst, rows.map Prod.snd, rows.length / b + 1)) := by
  intro fuel
  induction fuel with
  | zero => intro rows i fetch hf h; exact absurd h (Nat.not_lt_zero _)
  | succ f ih =>
    intro rows i fetch hf h
    have h0 : fetch i = .ok (page_of rows b 0) := by
      have := hf 0
      simpa using this
    rw [ts_read_go_succ, h0]
    by_cases hlen : rows.length < b
    · have hpage : page_of rows b 0 = rows := by
        simp [page_of, List.take_of_length_le (Nat.le_of_lt hlen)]
      have hdiv : rows.length / b = 0 := Nat.div_eq_of_lt hlen
      rw [hpage, hdiv]
      simp [hlen]
    · push_neg at hlen
      have hpage : page_of rows b 0 = rows.take b := by simp [page_of]
      have htlen : (rows.take b).length = b := by
        simp [List.length_take, Nat.min_eq_left hlen]
      have hdiv : rows.length / b = (rows.length - b) / b + 1 :=
        Nat.div_eq_sub_div hb hlen
      have hdl : (rows.drop b).length = rows.length - b := by simp
      have hrec : ts_read_go fetch b f (i + 1) =
          some (.ok ((rows.drop b).map Prod.fst, (rows.drop b).map Prod.snd,
            (rows.drop b).length / b + 1)) := by
        apply ih (rows.drop b) (i + 1) fetch
        · intro k
          have := hf (k + 1)
          have harr : i + (k + 1) = i + 1 + k := by omega
          rw [harr] at this
          rw [this]
          simp only [page_of, List.drop_drop]
          congr 2
          ring
        · rw [hdl]
          rw [hdiv] at h
          omega
      rw [hpage]
      dsimp only
      have hnotlt : ¬ (rows.take b).length < b := by rw [htlen]; omega
      rw [if_neg hnotlt, hrec]
      dsimp only
      have hcount : (rows.drop b).length / b + 1 + 1 = rows.length / b + 1 := by
        rw [hdl, hdiv]
      rw [← List.map_append, ← List.map_append, List.take_append_drop, hcount]

/-- Helper: if the page at index i + k is short or fails, the loop started
at i with fuel k + 1 finishes (returns some result). -/
theorem ts_read_go_terminates (b : Nat) :
    ∀ (k i : Nat) (fetch : Nat → Except Unit (List (ℚ × ℚ))),
      (∀ p, fetch (i + k) = .ok p → p.length < b) →
      ∃ r, ts_read_go fetch b (k + 1) i = some r := by
  intro k
  induction k with
  | zero =>
    intro i fetch hshort
    match hfi : fetch i with
    | .error e => exact ⟨.error e, by rw [ts_read_go_succ, hfi]⟩
    | .ok res =>
      have hlen : res.length < b := hshort res (by simpa using hfi)
      exact ⟨.ok (res.map Prod.fst, res.map Prod.snd, 1), by
        rw [ts_read_go_succ, hfi]
        simp [hlen]⟩
  | succ k ih =>
    intro i fetch hshort
    match hfi : fetch i with
    | .error e => exact ⟨.error e, by rw [ts_read_go_succ, hfi]⟩
    | .ok res =>
      by_cases hlen : res.length < b
      · exact ⟨.ok (res.map Prod.fst, res.map Prod.snd, 1), by
          rw [ts_read_go_succ, hfi]
          simp [hlen]⟩
      · obtain ⟨r, hr⟩ := ih (i + 1) fetch (by
          intro p hp
          exact hshort p (by rwa [show i + (k + 1) = i + 1 + k by omega]))
        match r, hr with
        | .error e, hr =>
          exact ⟨.error e, by
            rw [ts_read_go_succ, hfi]
            simp only [if_neg hlen, hr]⟩
        | .ok (ts, vs, n), hr =>
          exact ⟨.ok (res.map Prod.fst ++ ts, res.map Prod.snd ++ vs, n + 1), by
            rw [ts_read_go_succ, hfi]
            simp only [if_neg hlen, hr]⟩

/-- C4: the read loop uses fixed pages of 10000 rows and stops at the first
page with fewer rows than the page size; it terminates whenever some page
response is short; an honest store of exactly 25000 rows answers in exactly
three page requests returning all 25000 rows; and when the row count is an
exact multiple of the page size, one extra request occurs and that extra
page is empty. -/
theorem tsReader_pagination_spec :
    (∀ (fetch : Nat → Except Unit (List (ℚ × ℚ))) (n : Nat),
      (∀ p, fetch n = .ok p → p.length < batch_size) →
      ∃ r, ts_read_go fetch batch_size (n + 1) 0 = some r) ∧
    (∀ rows : List (ℚ × ℚ),
      ts_read_slices rows =
        some (.ok (rows.map Prod.fst, rows.map Prod.snd,
          rows.length / batch_size + 1))) ∧
    (∀ rows : List (ℚ × ℚ), rows.length = 25000 →
      ts_read_slices rows =
        some (.ok (rows.map Prod.fst, rows.map Prod.snd, 3)) ∧
      (rows.map Prod.fst).length = 25000) ∧
    (∀ rows : List (ℚ × ℚ), rows.length = 20000 →
      ts_read_slices rows =
        some (.ok (rows.map Prod.fst, rows.map Prod.snd, 3)) ∧
      page_of rows batch_size 2 = []) := by
  have hb : 0 < batch_size := by norm_num [batch_size]
  have hgen : ∀ rows : List (ℚ × ℚ),
      ts_read_slices rows =
        some (.ok (rows.map Prod.fst, rows.map Prod.snd,
          rows.length / batch_size + 1)) := by
    intro rows
    exact ts_read_go_slices batch_size hb _ rows 0 _
      (fun k => by simp) (Nat.lt_succ_self _)
  refine ⟨?_, hgen, ?_, ?_⟩
  · intro fetch n hshort
    exact ts_read_go_terminates batch_size n 0 fetch (by simpa using hshort)
  · intro rows hlen
    have hc : rows.length / batch_size + 1 = 3 := by
      rw [hlen]; norm_num [batch_size]
    have := hgen rows
    rw [hc] at this
    exact ⟨this, by simp [hlen]⟩
  · intro rows hlen
    have hc : rows.length / batch_size + 1 = 3 := by
      rw [hlen]; norm_num [batch_size]
    have := hgen rows
    rw [hc] at this
    refine ⟨this, ?_⟩
    have : rows.length ≤ 2 * batch_size := by rw [hlen]; norm_num [batch_size]
    simp [page_of, List.drop_eq_nil_of_le, hlen, batch_size]

/-- Witness for C4: the termination conjunct applied to a store whose first
page is already short, the 25000-row conjunct applied to a concrete
25000-row store, and the exact-multiple conjunct applied to a concrete
20000-row store. -/
theorem tsReader_pagination_witness :
    (∃ r, ts_read_go (fun _ => .ok []) batch_size 1 0 = some r) ∧
    ts_read_slices (List.replicate 25000 ((0 : ℚ), (0 : ℚ))) =
      some (.ok ((List.replicate 25000 ((0 : ℚ), (0 : ℚ))).map Prod.fst,
        (List.replicate 25000 ((0 : ℚ), (0 : ℚ))).map Prod.snd, 3)) ∧
    ts_read_slices (List.replicate 20000 ((0 : ℚ), (0 : ℚ))) =
      some (.ok ((List.replicate 20000 ((0 : ℚ), (0 : ℚ))).map Prod.fst,
        (List.replicate 20000 ((0 : ℚ), (0 : ℚ))).map Prod.snd, 3)) :=
  ⟨tsReader_pagination_spec.1 (fun _ => .ok []) 0
      (by intro p hp; cases hp; norm_num [batch_size]),
    (tsReader_pagination_spec.2.2.1 _ (by rw [List.length_replicate])).1,
    (tsReader_pagination_spec.2.2.2 _ (by rw [List.length_replicate])).1⟩

/-- C5: the high-water mark is committed only after the whole multi-page
read succeeds and returned at least one row; a failing page propagates the
error and leaves the mark untouched; an empty successful read leaves the
mark untouched; and a second read against a store with no data newer than
the mark returns an empty result in one page request and leaves the mark
unchanged. -/
theorem tsReader_hwm_spec :
    (∀ fetch fuel latest e,
      ts_read_go fetch batch_size fuel 0 = some (.error e) →
      ts_reader_read fetch fuel latest = some (.error e, latest)) ∧
    (∀ fetch fuel latest ts vs n
      (h : ts_read_go fetch batch_size fuel 0 = some (.ok (ts, vs, n)))
      (hne : ts ≠ []),
      ts_reader_read fetch fuel latest =
        some (.ok (ts, vs, n), some (ts.getLast hne))) ∧
    (∀ fetch fuel latest vs n,
      ts_read_go fetch batch_size fuel 0 = some (.ok ([], vs, n)) →
      ts_reader_read fetch fuel latest = some (.ok ([], vs, n), latest)) ∧
    (∀ (store : List (ℚ × ℚ)) (L : ℚ) (fuel : Nat), 0 < fuel →
      (∀ r ∈ store, r.1 ≤ L) →
      ts_reader_read (honest_fetch store (some L)) fuel (some L) =
        some (.ok ([], [], 1), some L)) := by
  refine ⟨?_, ?_, ?_, ?_⟩
  · intro fetch fuel latest e h
    simp [ts_reader_read, h]
  · intro fetch fuel latest ts vs n h hne
    simp [ts_reader_read, h, hne]
  · intro fetch fuel latest vs n h
    simp [ts_reader_read, h]
  · intro store L fuel hfuel hold
    have hfilter : hwm_filtered store (some L) = [] := by
      simp only [hwm_filtered]
      rw [List.filter_eq_nil_iff]
      intro r hr
      simpa using not_lt.mpr (hold r hr)
    have hfetch : ∀ i, honest_fetch store (some L) i = .ok [] := by
      intro i
      simp [honest_fetch, hfilter, page_of]
    obtain ⟨f, rfl⟩ : ∃ f, fuel = f + 1 := ⟨fuel - 1, by omega⟩
    have hloop : ts_read_go (honest_fetch store (some L)) batch_size (f + 1) 0 =
        some (.ok ([], [], 1)) := by
      rw [ts_read_go_succ, hfetch 0]
      norm_num [batch_size]
    simp [ts_reader_read, hloop]

/-- Witness for C5: a one-row store already covered by the high-water mark
5 yields an empty second read and the mark stays 5; a store whose first
page request fails propagates the error and keeps the mark at 7. -/
theorem tsReader_hwm_witness :
    ts_reader_read (honest_fetch [((1 : ℚ), (2 : ℚ))] (some 5)) 1 (some 5) =
      some (.ok ([], [], 1), some 5) ∧
    ts_reader_read (fun _ => .error ()) 1 (some 7) =
      some (.error (), some 7) :=
  ⟨tsReader_hwm_spec.2.2.2 [((1 : ℚ), (2 : ℚ))] 5 1 (by norm_num)
      (by intro r hr; simp at hr; simp [hr]),
    tsReader_hwm_spec.1 (fun _ => .error ()) 1 (some 7) () rfl⟩

/-- C10: every successful read returns as many timestamps as values, for
every sequence of page responses, including the empty result. -/
theorem tsReader_pairing_spec :
    ∀ (fetch : Nat → Except Unit (List (ℚ × ℚ))) (fuel i : Nat)
      (ts vs : List ℚ) (n : Nat),
      ts_read_go fetch batch_size fuel i = some (.ok (ts, vs, n)) →
      ts.length = vs.length := by
  intro fetch fuel
  induction fuel with
  | zero => intro i ts vs n h; simp [ts_read_go] at h
  | succ f ih =>
    intro i ts vs n h
    rw [ts_read_go_succ] at h
    match hfi : fetch i with
    | .error e =>
      rw [hfi] at h
      simp at h
    | .ok res =>
      rw [hfi] at h
      dsimp only at h
      by_cases hlen : res.length < batch_size
      · rw [if_pos hlen] at h
        simp only [Option.some.injEq, Except.ok.injEq, Prod.mk.injEq] at h
        obtain ⟨h1, h2, h3⟩ := h
        rw [← h1, ← h2]
        simp
      · rw [if_neg hlen] at h
        match hrec : ts_read_go fetch batch_size f (i + 1) with
        | none =>
          rw [hrec] at h
          simp at h
        | some (.error e) =>
          rw [hrec] at h
          simp at h
        | some (.ok (ts', vs', n')) =>
          rw [hrec] at h
          dsimp only at h
          simp only [Option.some.injEq, Except.ok.injEq, Prod.mk.injEq] at h
          obtain ⟨h1, h2, h3⟩ := h
          rw [← h1, ← h2]
          simp [ih (i + 1) ts' vs' n' hrec]

/-- Witness for C10: the pairing invariant applied to a store whose single
short page holds two rows. -/
theorem tsReader_pairing_witness :
    ([1, 3] : List ℚ).length = ([2, 4] : List ℚ).length :=
  tsReader_pairing_spec (fun _ => .ok [((1 : ℚ), (2 : ℚ)), (3, 4)]) 1 0
    [1, 3] [2, 4] 1 rfl

/-- Helper: difference list of a cons-cons list. -/
theorem diffs_cons_cons (x y : ℚ) (t : List ℚ) :
    diffs (x :: y :: t) = (y - x) :: diffs (y :: t) := rfl

/-- Helper: an arithmetic progression peels off its head. -/
theorem arithList_succ (a d : ℚ) (n : Nat) :
    arithList a d (n + 1) = a :: arithList (a + d) d n := by
  unfold arithList
  rw [List.range_succ_eq_map, List.map_cons, List.map_map]
  congr 1
  · push_cast
    ring
  · apply List.map_congr_left
    intro k hk
    simp only [Function.comp_apply, Nat.succ_eq_add_one]
    push_cast
    ring

/-- Helper: head of a nonempty arithmetic progression. -/
theorem arithList_head? (a d : ℚ) (n : Nat) :
    (arithList a d (n + 1)).head? = some a := by
  rw [arithList_succ]
  rfl

/-- Helper: last element of a nonempty arithmetic progression. -/
theorem arithList_getLast? (a d : ℚ) (n : Nat) :
    (arithList a d (n + 1)).getLast? = some (a + d * n) := by
  unfold arithList
  rw [List.range_succ, List.map_append]
  exact List.getLast?_concat _

/-- Helper: consecutive differences of an arithmetic progression are
constantly the step. -/
theorem diffs_arithList (d : ℚ) :
    ∀ (n : Nat) (a : ℚ), diffs (arithList a d (n + 1)) = List.replicate n d := by
  intro n
  induction n with
  | zero =>
    intro a
    rw [arithList_succ]
    rfl
  | succ n ih =>
    intro a
    rw [arithList_succ, arithList_succ, diffs_cons_cons, ← arithList_succ,
      ih (a + d), List.replicate_succ]
    congr 1
    ring

/-- Helper: difference list of a concatenation splits at the junction. -/
theorem diffs_append : ∀ (A B : List ℚ) (a b : ℚ),
    A.getLast? = some a → B.head? = some b →
    diffs (A ++ B) = diffs A ++ (b - a) :: diffs B := by
  intro A
  induction A with
  | nil => intro B a b hA hB; simp at hA
  | cons x t ih =>
    intro B a b hA hB
    match t with
    | [] =>
      simp at hA
      subst hA
      match B, hB with
      | bh :: bt, hB =>
        simp at hB
        subst hB
        rw [show ([x] ++ bh :: bt) = x :: bh :: bt from rfl, diffs_cons_cons]
        rfl
    | y :: t' =>
      have hA' : (y :: t').getLast? = some a := by
        rwa [List.getLast?_cons_cons] at hA
      rw [show ((x :: y :: t') ++ B) = x :: y :: (t' ++ B) from rfl,
        diffs_cons_cons,
        show (y :: (t' ++ B)) = (y :: t') ++ B from rfl,
        ih B a b hA' hB, diffs_cons_cons]
      rfl

/-- Helper: the difference list of the concrete gap input is 499 sixties,
one 180, and 499 more sixties. -/
theorem diffs_gap_ts :
    diffs gap_ts = List.replicate 499 (60 : ℚ) ++ 180 :: List.replicate 499 60 := by
  have e1 : arithList 0 60 500 = arithList 0 60 (499 + 1) := rfl
  have e2 : arithList 30120 60 500 = arithList 30120 60 (499 + 1) := rfl
  have h1 : (arithList 0 60 500).getLast? = some ((0 : ℚ) + 60 * ((499 : Nat) : ℚ)) := by
    rw [e1]; exact arithList_getLast? 0 60 499
  have h2 : (arithList 30120 60 500).head? = some 30120 := by
    rw [e2]; exact arithList_head? 30120 60 499
  unfold gap_ts
  rw [diffs_append _ _ _ _ h1 h2]
  rw [e1]
  rw [e2]
  rw [diffs_arithList]
  rw [diffs_arithList]
  have h180 : (30120 : ℚ) - ((0 : ℚ) + 60 * ((499 : Nat) : ℚ)) = 180 := by
    push_cast
    norm_num
  rw [h180]

/-- Helper: the sorted rearrangement of the gap difference list is 998
sixties followed by one 180. -/
theorem insertionSort_gap :
    List.insertionSort (· ≤ ·)
        (List.replicate 499 (60 : ℚ) ++ 180 :: List.replicate 499 60) =
      List.replicate 998 (60 : ℚ) ++ [180] := by
  have hjoin : List.replicate 499 (60 : ℚ) ++ List.replicate 499 (60 : ℚ) =
      List.replicate 998 (60 : ℚ) := by
    rw [← List.replicate_add]
  have p1 : (List.replicate 499 (60 : ℚ) ++ 180 :: List.replicate 499 60).Perm
      (180 :: List.replicate 998 (60 : ℚ)) := by
    have := @List.perm_middle ℚ (180 : ℚ)
      (List.replicate 499 (60 : ℚ)) (List.replicate 499 (60 : ℚ))
    rwa [hjoin] at this
  have p2 : (List.replicate 998 (60 : ℚ) ++ [180]).Perm
      (180 :: List.replicate 998 (60 : ℚ)) := by
    have := @List.perm_middle ℚ (180 : ℚ)
      (List.replicate 998 (60 : ℚ)) ([] : List ℚ)
    rwa [List.append_nil] at this
  have hsorted : List.Sorted (· ≤ ·) (List.replicate 998 (60 : ℚ) ++ [180]) := by
    rw [List.Sorted, List.pairwise_append]
    refine ⟨List.pairwise_replicate.mpr (Or.inr le_rfl), List.pairwise_singleton _ _, ?_⟩
    intro x hx y hy
    rw [List.eq_of_mem_replicate hx, List.mem_singleton.mp hy]
    norm_num
  exact List.eq_of_perm_of_sorted
    (((List.perm_insertionSort _ _).trans p1).trans p2.symm)
    (List.sorted_insertionSort _ _) hsorted

/-- Helper: the median of the gap difference list is 60. -/
theorem np_median_gap :
    np_median (List.replicate 499 (60 : ℚ) ++ 180 :: List.replicate 499 60) = 60 := by
  have hlen : (List.replicate 499 (60 : ℚ) ++ 180 :: List.replicate 499 60).length
      = 999 := by
    rw [List.length_append, List.length_replicate, List.length_cons,
      List.length_replicate]
  unfold np_median
  rw [insertionSort_gap, hlen]
  rw [if_pos (by norm_num : (999 : Nat) % 2 = 1),
    (by norm_num : (999 : Nat) / 2 = 499)]
  rw [List.getD_eq_getElem?_getD, List.getElem?_append]
  rw [List.length_replicate, if_pos (by norm_num : (499 : Nat) < 998)]
  rw [List.getElem?_replicate, if_pos (by norm_num : (499 : Nat) < 998)]
  rfl

/-- C3: estimate_delta pairs the last timestamp of the full input (none on
an empty input, where timestamps[-1] raises) with the median of the
consecutive differences of the first 1000 timestamps; on 1000 timestamps
spaced 60 seconds apart with one 180-second gap, the estimated cadence is
exactly 60 seconds and the last timestamp is the true last one, 60060. -/
theorem estimate_delta_spec :
    (∀ ts : List ℚ,
      estimate_delta ts =
        ts.getLast?.map (fun last_ts =>
          ⟨false, last_ts, np_median (diffs (ts.take 1000))⟩)) ∧
    estimate_delta gap_ts = some ⟨false, 60060, 60⟩ := by
  constructor
  · intro ts
    unfold estimate_delta
    match ts.getLast? with
    | none => rfl
    | some last_ts => rfl
  · have hlast : gap_ts.getLast? = some 60060 := by
      unfold gap_ts
      rw [List.getLast?_append_of_ne_nil]
      · have e2 : arithList 30120 60 500 = arithList 30120 60 (499 + 1) := rfl
        rw [e2, arithList_getLast? 30120 60 499]
        norm_num
      · have e2 : arithList 30120 60 500 = arithList 30120 60 (499 + 1) := rfl
        rw [e2, arithList_succ]
        exact List.cons_ne_nil _ _
    have hlen : gap_ts.length = 1000 := by
      unfold gap_ts arithList
      rw [List.length_append, List.length_map, List.length_range,
        List.length_map, List.length_range]
    have htake : gap_ts.take 1000 = gap_ts :=
      List.take_of_length_le (by rw [hlen])
    unfold estimate_delta
    rw [hlast, htake, diffs_gap_ts, np_median_gap]

/-- Helper: one-step unfolding of the interpolation fill loop. -/
theorem lininterp_fill_succ (step : ℚ) (fuel m : Nat) (data : List (Option ℚ)) :
    lininterp_fill step (fuel + 1) m data =
      match pyGet data ((m : Int) - 1) with
      | none => .error .indexError
      | some none => .error .typeError
      | some (some v) =>
        lininterp_fill step fuel (m + 1) (data.set m (some (v + step))) := rfl

/-- Helper: one-step unfolding of the inner scan. -/
theorem lininterp_find_succ (data : List (Option ℚ)) (fuel k : Nat) :
    lininterp_find data (fuel + 1) k =
      match data[k]? with
      | some (some _) => (k : Int)
      | _ => lininterp_find data fuel (k + 1) := rfl

/-- Helper: one-step unfolding of the outer interpolation loop. -/
theorem lininterp_go_succ (fuel i : Nat) (data : List (Option ℚ)) :
    lininterp_go (fuel + 1) i data =
      match data[i]? with
      | none => .error .indexError
      | some (some _) => lininterp_go fuel (i + 1) data
      | some none =>
        match pyGet data ((i : Int) - 1) with
        | none => .error .indexError
        | some left =>
          match pyGet data (find_nonempty data (i + 1)) with
          | none => .error .indexError
          | some right =>
            match right, left with
            | some r, some l =>
              match lininterp_fill_run data i (find_nonempty data (i + 1))
                  ((r - l) / ((find_nonempty data (i + 1) : ℚ) - (i : ℚ) + 1)) with
              | .error e => .error e
              | .ok d => lininterp_go fuel (i + 1) d
            | _, _ => .error .typeError := rfl

/-- Helper: a nonnegative Python index is an ordinary lookup. -/
theorem pyGet_nonneg {α : Type} (l : List α) (i : Int) (h : 0 ≤ i) :
    pyGet l i = l[i.toNat]? := by
  unfold pyGet
  rw [if_neg (by omega)]

/-- Helper: the Python index -1 denotes the last element (none when the
list is empty, matching IndexError). -/
theorem pyGet_neg_one {α : Type} (l : List α) :
    pyGet l (-1) = l.getLast? := by
  unfold pyGet
  rw [if_pos (by omega)]
  by_cases hl : l = []
  · subst hl
    simp
  · have hlen : 1 ≤ l.length := List.length_pos.mpr hl
    rw [if_pos (by omega), List.getLast?_eq_getElem?]
    congr 1
    omega

/-- Helper: indexing just before the junction of an append reads the last
element of the first part. -/
theorem pyGet_last_of_append {α : Type} (p rest : List α) (hp : p ≠ []) :
    pyGet (p ++ rest) ((p.length : Int) - 1) = p.getLast? := by
  have h1 : 1 ≤ p.length := List.length_pos.mpr hp
  rw [pyGet_nonneg _ _ (by omega)]
  have h2 : ((p.length : Int) - 1).toNat = p.length - 1 := by omega
  rw [h2, List.getElem?_append, if_pos (by omega), List.getLast?_eq_getElem?]

/-- Helper: indexing at offset t past the first part of an append reads
into the second part. -/
theorem getElem?_append_offset {α : Type} (p q : List α) (t : Nat) :
    (p ++ q)[p.length + t]? = q[t]? := by
  rw [List.getElem?_append, if_neg (by omega)]
  congr 1
  omega

/-- Helper: shifting the evenly spaced value list by one position. -/
theorem range_map_some_shift (c step : ℚ) (L : Nat) :
    (List.range (L + 1)).map (fun t : Nat => some (c + ((t : ℚ) + 1) * step)) =
      some (c + step) :: (List.range L).map
        (fun t : Nat => some ((c + step) + ((t : ℚ) + 1) * step)) := by
  rw [List.range_succ_eq_map, List.map_cons, List.map_map]
  congr 1
  · congr 1
    push_cast
    ring
  · apply List.map_congr_left
    intro t ht
    simp only [Function.comp_apply, Nat.succ_eq_add_one]
    congr 1
    push_cast
    ring

/-- Helper: the fill loop over a run of L empty buckets preceded by the
present value c writes the cumulative values c + step, c + 2 step and so
on, leaving everything else unchanged. -/
theorem lininterp_fill_block :
    ∀ (L : Nat) (pref : List (Option ℚ)) (c step : ℚ) (tail : List (Option ℚ)),
      pref ≠ [] → pref.getLast? = some (some c) →
      lininterp_fill step L pref.length
          (pref ++ (List.replicate L none ++ tail)) =
        .ok (pref ++ ((List.range L).map
            (fun t : Nat => some (c + ((t : ℚ) + 1) * step)) ++ tail)) := by
  intro L
  induction L with
  | zero =>
    intro pref c step tail hp hc
    simp [lininterp_fill]
  | succ L ih =>
    intro pref c step tail hp hc
    rw [lininterp_fill_succ, pyGet_last_of_append _ _ hp, hc]
    dsimp only
    have hset : (pref ++ (List.replicate (L + 1) none ++ tail)).set pref.length
        (some (c + step)) =
        (pref ++ [some (c + step)]) ++ (List.replicate L none ++ tail) := by
      rw [List.set_append, if_neg (by omega), Nat.sub_self,
        List.replicate_succ, List.cons_append, List.set_cons_zero]
      simp only [List.append_assoc, List.singleton_append]
    rw [hset]
    have hlen : pref.length + 1 = (pref ++ [some (c + step)]).length := by
      simp
    rw [hlen, ih (pref ++ [some (c + step)]) (c + step) step tail
      (by simp) (List.getLast?_concat _)]
    rw [range_map_some_shift]
    simp only [List.append_assoc, List.singleton_append, List.cons_append,
      List.nil_append]

/-- Helper: the outer loop walks over s consecutive present buckets without
changing the data. -/
theorem lininterp_go_skip :
    ∀ (s fuel i : Nat) (data : List (Option ℚ)),
      (∀ t, t < s → ∃ w : ℚ, data[i + t]? = some (some w)) →
      lininterp_go (s + fuel) i data = lininterp_go fuel (i + s) data := by
  intro s
  induction s with
  | zero =>
    intro fuel i data hsome
    rw [Nat.zero_add, Nat.add_zero]
  | succ s ih =>
    intro fuel i data hsome
    obtain ⟨w, hw⟩ := hsome 0 (Nat.succ_pos s)
    rw [Nat.add_zero] at hw
    rw [show s + 1 + fuel = (s + fuel) + 1 by omega, lininterp_go_succ, hw]
    dsimp only
    rw [ih fuel (i + 1) data (fun t ht => by
      have := hsome (t + 1) (by omega)
      rwa [show i + (t + 1) = i + 1 + t by omega] at this)]
    congr 1
    omega

/-- Helper: the inner scan over a run of m empty buckets followed by a
present bucket returns the index of the present bucket. -/
theorem lininterp_find_block :
    ∀ (m fuel k : Nat) (data : List (Option ℚ)) (w : ℚ),
      (∀ t, t < m → data[k + t]? = some none) →
      data[k + m]? = some (some w) →
      m < fuel →
      lininterp_find data fuel k = ((k + m : Nat) : Int) := by
  intro m
  induction m with
  | zero =>
    intro fuel k data w hn hw hm
    obtain ⟨f, rfl⟩ : ∃ f, fuel = f + 1 := ⟨fuel - 1, by omega⟩
    rw [Nat.add_zero] at hw
    rw [lininterp_find_succ, hw]
    dsimp only
    norm_num
  | succ m ih =>
    intro fuel k data w hn hw hm
    obtain ⟨f, rfl⟩ : ∃ f, fuel = f + 1 := ⟨fuel - 1, by omega⟩
    have h0 : data[k]? = some none := by
      have := hn 0 (Nat.succ_pos m)
      rwa [Nat.add_zero] at this
    rw [lininterp_find_succ, h0]
    dsimp only
    rw [ih f (k + 1) data w (fun t ht => by
        have := hn (t + 1) (by omega)
        rwa [show k + (t + 1) = k + 1 + t by omega] at this)
      (by rwa [show k + 1 + m = k + (m + 1) by omega]) (by omega)]
    congr 1
    omega

/-- Helper: any position of a mapped-some block glued after a list of known
length holds a present value. -/
theorem getElem?_append_map_some (p : List (Option ℚ)) (q : List ℚ)
    (idx : Nat) (h1 : p.length ≤ idx) (h2 : idx < p.length + q.length) :
    ∃ w : ℚ, (p ++ q.map some)[idx]? = some (some w) := by
  rw [List.getElem?_append, if_neg (by omega), List.getElem?_map,
    List.getElem?_eq_getElem (by omega)]
  exact ⟨_, rfl⟩

/-- Helper: reading the junction position of an append. -/
theorem getElem?_append_length {α : Type} (p : List α) (x : α) (q : List α) :
    (p ++ x :: q)[p.length]? = some x := by
  rw [List.getElem?_append, if_neg (by omega), Nat.sub_self]
  simp

/-- Helper: reading past the first part of an append at a shifted index. -/
theorem getElem?_append_add {α : Type} (p q : List α) (i t : Nat)
    (h : i = p.length + t) : (p ++ q)[i]? = q[t]? := by
  subst h
  exact getElem?_append_offset p q t

/-- Helper: interior positions of a replicate of none are empty buckets. -/
theorem getElem?_replicate_none (L t : Nat) (h : t < L) :
    (List.replicate L (none : Option ℚ))[t]? = some none := by
  rw [List.getElem?_replicate, if_pos h]

/-- Main interpolation lemma: starting after a processed prefix done that
ends in the present value l, the outer loop over the block-structured tail
fills every gap with its evenly spaced values and keeps present values. -/
theorem lininterp_go_build :
    ∀ (segs : List (Nat × ℚ)) (done : List (Option ℚ)) (l : ℚ),
      done ≠ [] → done.getLast? = some (some l) →
      lininterp_go (buildT segs).length done.length (done ++ buildT segs) =
        .ok (done ++ (fillT l segs).map some) := by
  intro segs
  induction segs with
  | nil =>
    intro done l hne hlast
    simp [buildT, fillT, lininterp_go]
  | cons seg rest ih =>
    obtain ⟨L, v⟩ := seg
    cases L with
    | zero =>
      intro done l hne hlast
      have hbt : buildT ((0, v) :: rest) = some v :: buildT rest := by
        simp [buildT]
      rw [hbt, show (some v :: buildT rest).length = (buildT rest).length + 1
        from rfl, lininterp_go_succ, getElem?_append_length]
      dsimp only
      have hdata : done ++ some v :: buildT rest =
          (done ++ [some v]) ++ buildT rest := by
        simp
      have hlen : done.length + 1 = (done ++ [some v]).length := by simp
      rw [hdata, hlen, ih (done ++ [some v]) v (by simp) (List.getLast?_concat _)]
      have hfill : fillT l ((0, v) :: rest) = v :: fillT v rest := by
        simp [fillT, seg_fill]
      rw [hfill]
      simp
    | succ L' =>
      intro done l hne hlast
      have hbt : buildT ((L' + 1, v) :: rest) =
          List.replicate (L' + 1) none ++ some v :: buildT rest := rfl
      rw [hbt]
      have hfuel : (List.replicate (L' + 1) (none : Option ℚ) ++
          some v :: buildT rest).length = L' + 1 + (buildT rest).length + 1 := by
        rw [List.length_append, List.length_replicate, List.length_cons]
        omega
      rw [hfuel, lininterp_go_succ]
      have hd0 : (done ++ (List.replicate (L' + 1) (none : Option ℚ) ++
          some v :: buildT rest))[done.length]? = some none := by
        rw [List.replicate_succ, List.cons_append, getElem?_append_length]
      rw [hd0]
      dsimp only
      have hv : (done ++ (List.replicate (L' + 1) (none : Option ℚ) ++
          some v :: buildT rest))[done.length + 1 + L']? = some (some v) := by
        rw [getElem?_append_add done _ _ (L' + 1) (by omega),
          List.getElem?_append, if_neg (by rw [List.length_replicate]; omega),
          List.length_replicate, show L' + 1 - (L' + 1) = 0 by omega]
        simp
      have hj : find_nonempty (done ++ (List.replicate (L' + 1) (none : Option ℚ) ++
          some v :: buildT rest)) (done.length + 1) =
          ((done.length + 1 + L' : Nat) : Int) := by
        unfold find_nonempty
        apply lininterp_find_block L' _ _ _ v
        · intro t ht
          rw [getElem?_append_add done _ _ (1 + t) (by omega),
            List.getElem?_append, if_pos (by rw [List.length_replicate]; omega)]
          exact getElem?_replicate_none _ _ (by omega)
        · exact hv
        · rw [List.length_append, List.length_append, List.length_replicate,
            List.length_cons]
          omega
      have hleft : pyGet (done ++ (List.replicate (L' + 1) (none : Option ℚ) ++
          some v :: buildT rest)) ((done.length : Int) - 1) = some (some l) := by
        rw [pyGet_last_of_append _ _ hne, hlast]
      rw [hj, hleft]
      dsimp only
      have hright : pyGet (done ++ (List.replicate (L' + 1) (none : Option ℚ) ++
          some v :: buildT rest)) (((done.length + 1 + L' : Nat) : Int)) =
          some (some v) := by
        rw [pyGet_nonneg _ _ (by omega)]
        have htn : (((done.length + 1 + L' : Nat) : Int)).toNat =
            done.length + 1 + L' := by omega
        rw [htn, hv]
      rw [hright]
      dsimp only
      have hstep : (v - l) / ((((done.length + 1 + L' : Nat) : Int) : ℚ) -
          (done.length : ℚ) + 1) = (v - l) / (((L' + 1 : Nat) : ℚ) + 1) := by
        congr 1
        push_cast
        ring
      rw [hstep]
      have hX : ((((done.length + 1 + L' : Nat) : Int)) - (done.length : Int)).toNat
          = L' + 1 := by omega
      rw [show lininterp_fill_run (done ++ (List.replicate (L' + 1) (none : Option ℚ) ++
            some v :: buildT rest)) done.length (((done.length + 1 + L' : Nat) : Int))
            ((v - l) / (((L' + 1 : Nat) : ℚ) + 1)) =
          lininterp_fill ((v - l) / (((L' + 1 : Nat) : ℚ) + 1)) (L' + 1) done.length
            (done ++ (List.replicate (L' + 1) (none : Option ℚ) ++
              some v :: buildT rest)) by
        unfold lininterp_fill_run
        rw [hX]]
      rw [lininterp_fill_block (L' + 1) done l _ (some v :: buildT rest) hne hlast]
      dsimp only
      have hdfill : done ++ ((List.range (L' + 1)).map
            (fun t : Nat => some (l + ((t : ℚ) + 1) * ((v - l) / (((L' + 1 : Nat) : ℚ) + 1)))) ++
            some v :: buildT rest) =
          (done ++ ((List.range (L' + 1)).map
            (fun t : Nat => l + ((t : ℚ) + 1) * ((v - l) / (((L' + 1 : Nat) : ℚ) + 1))) ++
            [v]).map some) ++ buildT rest := by
        rw [List.map_append, List.map_map]
        simp only [List.map_cons, List.map_nil, List.append_assoc,
          List.singleton_append]
        rfl
      rw [hdfill]
      have hslen : (done ++ List.map some ((List.range (L' + 1)).map
          (fun t : Nat => l + ((t : ℚ) + 1) * ((v - l) / (((L' + 1 : Nat) : ℚ) + 1))) ++
          [v])).length = done.length + 1 + (L' + 1) := by
        rw [List.length_append, List.length_map, List.length_append,
          List.length_map, List.length_range, List.length_singleton]
        omega
      rw [lininterp_go_skip (L' + 1) (buildT rest).length (done.length + 1) _
        (by
          intro t ht
          obtain ⟨w, hw⟩ := getElem?_append_map_some done
            ((List.range (L' + 1)).map
              (fun t : Nat => l + ((t : ℚ) + 1) * ((v - l) / (((L' + 1 : Nat) : ℚ) + 1))) ++
              [v]) (done.length + 1 + t) (by omega)
            (by
              rw [List.length_append, List.length_map, List.length_range,
                List.length_singleton]
              omega)
          refine ⟨w, ?_⟩
          rw [List.getElem?_append, if_pos (by rw [hslen]; omega)]
          exact hw)]
      rw [← hslen,
        ih (done ++ List.map some ((List.range (L' + 1)).map
          (fun t : Nat => l + ((t : ℚ) + 1) * ((v - l) / (((L' + 1 : Nat) : ℚ) + 1))) ++
          [v])) v (by simp [hne])
        (by
          rw [List.map_append, show List.map some [v] = [some v] from rfl,
            ← List.append_assoc, List.getLast?_concat])]
      rw [show fillT l ((L' + 1, v) :: rest) =
          seg_fill l v (L' + 1) ++ v :: fillT v rest from rfl]
      rw [show seg_fill l v (L' + 1) = (List.range (L' + 1)).map
          (fun t : Nat => l + ((t : ℚ) + 1) * ((v - l) / (((L' + 1 : Nat) : ℚ) + 1)))
          from rfl]
      simp only [List.map_append, List.map_cons, List.map_nil, List.append_assoc,
        List.singleton_append, List.cons_append, List.nil_append]

/-- C2: for every well-formed sequence (present first and last values, gaps
strictly between present values), linear_interp fills each maximal run of L
missing values between left and right with values spaced evenly by
step = (right - left) / (L + 1); concretely [1, None, None, 4] becomes
[1, 2, 3, 4] and [2, None, 8] becomes [2, 5, 8]. -/
theorem linear_interp_spec :
    (∀ (v0 : ℚ) (segs : List (Nat × ℚ)),
      linear_interp (build v0 segs) = .ok ((fillAll v0 segs).map some)) ∧
    linear_interp [some 1, none, none, some 4] =
      .ok [some 1, some 2, some 3, some 4] ∧
    linear_interp [some 2, none, some 8] = .ok [some 2, some 5, some 8] := by
  have hgen : ∀ (v0 : ℚ) (segs : List (Nat × ℚ)),
      linear_interp (build v0 segs) = .ok ((fillAll v0 segs).map some) := by
    intro v0 segs
    unfold linear_interp build
    rw [show (some v0 :: buildT segs).length = (buildT segs).length + 1 from rfl,
      lininterp_go_succ, List.getElem?_cons_zero]
    dsimp only
    rw [Nat.zero_add,
      show (some v0 :: buildT segs) = [some v0] ++ buildT segs from rfl,
      show (1 : Nat) = ([some v0] : List (Option ℚ)).length from rfl,
      lininterp_go_build segs [some v0] v0 (by simp) rfl,
      show fillAll v0 segs = v0 :: fillT v0 segs from rfl]
    simp
  refine ⟨hgen, ?_, ?_⟩
  · have h := hgen 1 [(2, 4)]
    rw [show build 1 [(2, 4)] = [some 1, none, none, some 4] from rfl] at h
    rw [h]
    norm_num [fillAll, fillT, seg_fill, List.range_succ]
  · have h := hgen 2 [(1, 8)]
    rw [show build 2 [(1, 8)] = [some 2, none, some 8] from rfl] at h
    rw [h]
    norm_num [fillAll, fillT, seg_fill, List.range_succ]

/-- Helper: the inner scan either falls through with -1 or returns an index
at or after its start holding a present value. -/
theorem lininterp_find_cases :
    ∀ (fuel k : Nat) (data : List (Option ℚ)),
      lininterp_find data fuel k = -1 ∨
      ∃ (m : Nat) (w : ℚ), lininterp_find data fuel k = (m : Int) ∧
        k ≤ m ∧ data[m]? = some (some w) := by
  intro fuel
  induction fuel with
  | zero => intro k data; exact Or.inl rfl
  | succ f ih =>
    intro k data
    match hk : data[k]? with
    | some (some w) =>
      refine Or.inr ⟨k, w, ?_, le_refl k, hk⟩
      rw [lininterp_find_succ, hk]
    | some none =>
      have hstep : lininterp_find data (f + 1) k = lininterp_find data f (k + 1) := by
        rw [lininterp_find_succ, hk]
      rcases ih (k + 1) data with h | ⟨m, w, hm, hkm, hw⟩
      · exact Or.inl (by rw [hstep]; exact h)
      · exact Or.inr ⟨m, w, by rw [hstep]; exact hm, by omega, hw⟩
    | none =>
      have hstep : lininterp_find data (f + 1) k = lininterp_find data f (k + 1) := by
        rw [lininterp_find_succ, hk]
      rcases ih (k + 1) data with h | ⟨m, w, hm, hkm, hw⟩
      · exact Or.inl (by rw [hstep]; exact h)
      · exact Or.inr ⟨m, w, by rw [hstep]; exact hm, by omega, hw⟩

/-- Helper: the fill loop succeeds whenever the bucket left of its start is
present and it stays in bounds; it preserves the length, all positions at or
beyond its end and all positions before its start, and every position it
wrote holds a present value. -/
theorem lininterp_fill_ok :
    ∀ (n i : Nat) (data : List (Option ℚ)) (step c : ℚ),
      pyGet data ((i : Int) - 1) = some (some c) →
      i + n ≤ data.length →
      ∃ d, lininterp_fill step n i data = .ok d ∧ d.length = data.length ∧
        (∀ m, i + n ≤ m → d[m]? = data[m]?) ∧
        (∀ m, m < i → d[m]? = data[m]?) ∧
        (∀ m, i ≤ m → m < i + n → ∃ u : ℚ, d[m]? = some (some u)) := by
  intro n
  induction n with
  | zero =>
    intro i data step c hc hb
    exact ⟨data, rfl, rfl, fun m hm => rfl, fun m hm => rfl,
      fun m h1 h2 => absurd h2 (by omega)⟩
  | succ n ih =>
    intro i data step c hc hb
    have hilt : i < data.length := by omega
    have hset_len : (data.set i (some (c + step))).length = data.length := by
      rw [List.length_set]
    have hnext : pyGet (data.set i (some (c + step))) (((i + 1 : Nat) : Int) - 1)
        = some (some (c + step)) := by
      rw [pyGet_nonneg _ _ (by omega),
        show ((((i + 1 : Nat) : Int)) - 1).toNat = i by omega,
        List.getElem?_set, if_pos rfl, if_pos hilt]
    obtain ⟨d, hd, hdlen, hdpost, hdpre, hdin⟩ := ih (i + 1)
      (data.set i (some (c + step))) step (c + step) hnext
      (by rw [hset_len]; omega)
    refine ⟨d, ?_, by rw [hdlen, hset_len], fun m hm => ?_, fun m hm => ?_,
      fun m h1 h2 => ?_⟩
    · rw [lininterp_fill_succ, hc]
      dsimp only
      exact hd
    · rw [hdpost m (by omega), List.getElem?_set_ne (by omega)]
    · rw [hdpre m (by omega), List.getElem?_set_ne (by omega)]
    · rcases Nat.eq_or_lt_of_le h1 with heq | hlt2
      · refine ⟨c + step, ?_⟩
        rw [← heq, hdpre i (by omega), List.getElem?_set, if_pos rfl,
          if_pos hilt]
      · exact hdin m (by omega) (by omega)

/-- Helper: when the last bucket of the data is empty, the outer loop always
ends in a TypeError: at the first index from which every later bucket is
empty the scan returns -1 and right = data[-1] is None, and at a leading
gap left = data[-1] is None; in both cases the subtraction fails. -/
theorem lininterp_go_trailing :
    ∀ (fuel i : Nat) (data : List (Option ℚ)),
      fuel + i = data.length → i < data.length →
      data.getLast? = some none →
      lininterp_go fuel i data = .error .typeError := by
  intro fuel
  induction fuel with
  | zero => intro i data hfi hlt hlast; omega
  | succ f ih =>
    intro i data hfi hlt hlast
    rw [lininterp_go_succ]
    match hi : data[i]? with
    | none =>
      exact absurd hi (by simp [List.getElem?_eq_getElem hlt])
    | some (some w) =>
      have hne : i ≠ data.length - 1 := by
        intro hcontra
        rw [List.getLast?_eq_getElem?, ← hcontra, hi] at hlast
        simp at hlast
      dsimp only
      exact ih (i + 1) data (by omega) (by omega) hlast
    | some none =>
      dsimp only
      have hlen1 : 1 ≤ data.length := by omega
      have hleft : ∃ lv, pyGet data ((i : Int) - 1) = some lv := by
        match i with
        | 0 =>
          rw [show (((0 : Nat) : Int)) - 1 = -1 by decide, pyGet_neg_one, hlast]
          exact ⟨none, rfl⟩
        | i' + 1 =>
          rw [pyGet_nonneg _ _ (by omega),
            show ((((i' + 1 : Nat) : Int)) - 1).toNat = i' by omega]
          exact ⟨data[i'], List.getElem?_eq_getElem (by omega)⟩
      obtain ⟨lv, hlv⟩ := hleft
      rw [hlv]
      dsimp only
      rcases lininterp_find_cases (data.length - (i + 1)) (i + 1) data with hf |
        ⟨m, w2, hm, hkm, hw2⟩
      · have hjeq : find_nonempty data (i + 1) = -1 := hf
        rw [hjeq, pyGet_neg_one, hlast]
      · have hjeq : find_nonempty data (i + 1) = ((m : Nat) : Int) := hm
        have hmlt : m < data.length := by
          rcases List.getElem?_eq_some.mp hw2 with ⟨hlt2, _⟩
          exact hlt2
        have hmne : m ≠ data.length - 1 := by
          intro hcontra
          rw [List.getLast?_eq_getElem?, ← hcontra, hw2] at hlast
          simp at hlast
        rw [hjeq, pyGet_nonneg _ _ (by omega),
          show ((((m : Nat) : Int))).toNat = m by omega, hw2]
        dsimp only
        cases lv with
        | none => rfl
        | some lvv =>
          dsimp only
          obtain ⟨d, hd, hdlen, hdpres, -, -⟩ := lininterp_fill_ok (m - i) i data
            ((w2 - lvv) / ((((m : Nat) : Int) : ℚ) - (i : ℚ) + 1)) lvv hlv (by omega)
          rw [show lininterp_fill_run data i (((m : Nat) : Int))
              ((w2 - lvv) / ((((m : Nat) : Int) : ℚ) - (i : ℚ) + 1)) =
              lininterp_fill ((w2 - lvv) / ((((m : Nat) : Int) : ℚ) - (i : ℚ) + 1))
                (m - i) i data by
            unfold lininterp_fill_run
            rw [show ((((m : Nat) : Int)) - ((i : Nat) : Int)).toNat = m - i by omega]]
          rw [hd]
          dsimp only
          refine ih (i + 1) d (by omega) (by omega) ?_
          rw [List.getLast?_eq_getElem?, hdlen,
            hdpres (data.length - 1) (by omega), ← List.getLast?_eq_getElem?]
          exact hlast

/-- Helper: when some position within reach of the scan holds a present
value, the scan finds one: it returns an index at or after its start whose
bucket is present. -/
theorem lininterp_find_hit :
    ∀ (fuel k : Nat) (data : List (Option ℚ)),
      (∃ t, t < fuel ∧ ∃ u : ℚ, data[k + t]? = some (some u)) →
      ∃ (m : Nat) (w : ℚ), lininterp_find data fuel k = ((m : Nat) : Int) ∧
        k ≤ m ∧ data[m]? = some (some w) := by
  intro fuel
  induction fuel with
  | zero =>
    intro k data h
    obtain ⟨t, ht, -⟩ := h
    omega
  | succ f ih =>
    intro k data h
    match hk : data[k]? with
    | some (some u) =>
      refine ⟨k, u, ?_, le_refl k, hk⟩
      rw [lininterp_find_succ, hk]
    | some none =>
      obtain ⟨t, ht, u, hu⟩ := h
      have ht0 : t ≠ 0 := by
        intro hc
        subst hc
        rw [Nat.add_zero, hk] at hu
        simp at hu
      obtain ⟨m, w2, hm, hkm, hw⟩ := ih (k + 1) data
        ⟨t - 1, by omega, u, by rw [show k + 1 + (t - 1) = k + t by omega]; exact hu⟩
      refine ⟨m, w2, ?_, by omega, hw⟩
      rw [lininterp_find_succ, hk]
      exact hm
    | none =>
      obtain ⟨t, ht, u, hu⟩ := h
      have ht0 : t ≠ 0 := by
        intro hc
        subst hc
        rw [Nat.add_zero, hk] at hu
        simp at hu
      obtain ⟨m, w2, hm, hkm, hw⟩ := ih (k + 1) data
        ⟨t - 1, by omega, u, by rw [show k + 1 + (t - 1) = k + t by omega]; exact hu⟩
      refine ⟨m, w2, ?_, by omega, hw⟩
      rw [lininterp_find_succ, hk]
      exact hm

/-- Helper: when the last bucket of the data is present, the outer loop
never raises: every scan started below a present bucket succeeds, the left
neighbour of an empty bucket is always present (at index 0 through the
data[-1] wrap-around to the present last bucket, later because all visited
positions have been filled), and every fill stays in bounds. The final list
has the same length and every bucket present. -/
theorem lininterp_go_ok :
    ∀ (fuel i : Nat) (data : List (Option ℚ)) (w : ℚ),
      fuel + i = data.length →
      data.getLast? = some (some w) →
      (∀ k, k < i → ∃ u : ℚ, data[k]? = some (some u)) →
      ∃ d, lininterp_go fuel i data = .ok d ∧ d.length = data.length ∧
        ∀ k, k < data.length → ∃ u : ℚ, d[k]? = some (some u) := by
  intro fuel
  induction fuel with
  | zero =>
    intro i data w hfi hlast hinv
    exact ⟨data, rfl, rfl, fun k hk => hinv k (by omega)⟩
  | succ f ih =>
    intro i data w hfi hlast hinv
    have hlt : i < data.length := by omega
    rw [lininterp_go_succ]
    match hi : data[i]? with
    | none =>
      exact absurd hi (by simp [List.getElem?_eq_getElem hlt])
    | some (some u) =>
      obtain ⟨d, hd, hdlen, hdall⟩ := ih (i + 1) data w (by omega) hlast
        (fun k hk => by
          rcases Nat.lt_succ_iff_lt_or_eq.mp hk with h | h
          · exact hinv k h
          · subst h
            exact ⟨u, hi⟩)
      exact ⟨d, hd, hdlen, hdall⟩
    | some none =>
      have hne : i ≠ data.length - 1 := by
        intro hc
        rw [List.getLast?_eq_getElem?, ← hc, hi] at hlast
        simp at hlast
      have hwlast : data[data.length - 1]? = some (some w) := by
        rw [← List.getLast?_eq_getElem?]
        exact hlast
      obtain ⟨m, rv, hm, hkm, hmv⟩ := lininterp_find_hit (data.length - (i + 1))
        (i + 1) data
        ⟨data.length - 1 - (i + 1), by omega, w, by
          rw [show i + 1 + (data.length - 1 - (i + 1)) = data.length - 1 by omega]
          exact hwlast⟩
      have hmlt : m < data.length := (List.getElem?_eq_some.mp hmv).1
      have hfind : find_nonempty data (i + 1) = ((m : Nat) : Int) := hm
      rw [hfind]
      have hleft : ∃ lu : ℚ, pyGet data ((i : Int) - 1) = some (some lu) := by
        cases i with
        | zero =>
          refine ⟨w, ?_⟩
          rw [show (((0 : Nat) : Int)) - 1 = -1 by decide, pyGet_neg_one, hlast]
        | succ i' =>
          obtain ⟨u, hu⟩ := hinv i' (by omega)
          refine ⟨u, ?_⟩
          rw [pyGet_nonneg _ _ (by omega),
            show ((((i' + 1 : Nat) : Int)) - 1).toNat = i' by omega]
          exact hu
      obtain ⟨lu, hlu⟩ := hleft
      rw [hlu, pyGet_nonneg _ _ (by omega),
        show ((((m : Nat) : Int))).toNat = m by omega, hmv]
      dsimp only
      obtain ⟨d1, hd1, hd1len, hd1post, hd1pre, hd1in⟩ := lininterp_fill_ok
        (m - i) i data ((rv - lu) / ((((m : Nat) : Int) : ℚ) - (i : ℚ) + 1))
        lu hlu (by omega)
      rw [show lininterp_fill_run data i (((m : Nat) : Int))
            ((rv - lu) / ((((m : Nat) : Int) : ℚ) - (i : ℚ) + 1)) =
          lininterp_fill ((rv - lu) / ((((m : Nat) : Int) : ℚ) - (i : ℚ) + 1))
            (m - i) i data by
        unfold lininterp_fill_run
        rw [show ((((m : Nat) : Int)) - ((i : Nat) : Int)).toNat = m - i by omega]]
      rw [hd1]
      obtain ⟨d, hd, hdlen, hdall⟩ := ih (i + 1) d1 w (by omega)
        (by
          rw [List.getLast?_eq_getElem?, hd1len,
            hd1post (data.length - 1) (by omega)]
          exact hwlast)
        (fun k hk => by
          rcases Nat.lt_succ_iff_lt_or_eq.mp hk with h | h
          · obtain ⟨u, hu⟩ := hinv k h
            exact ⟨u, by rw [hd1pre k h]; exact hu⟩
          · subst h
            exact hd1in k (le_refl k) (by omega))
      exact ⟨d, hd, by rw [hdlen, hd1len],
        fun k hk => hdall k (by omega)⟩

/-- Counterexample for C9: the input [None, 5] has a missing first element,
yet linear_interp raises no out-of-range indexing error: Python negative
indexing wraps data[-1] to the last element, so the call returns the filled
sequence [5, 5]. -/
theorem linear_interp_boundary_counterexample :
    linear_interp [none, some 5] = .ok [some 5, some 5] := by
  norm_num [linear_interp, lininterp_go, find_nonempty, lininterp_find,
    lininterp_fill_run, lininterp_fill, pyGet]

/-- C9 (amended): on an input whose last element is missing, linear_interp
raises a TypeError (arithmetic on None reached through the data[-1]
wrap-around), not an out-of-range indexing error; on an input whose first
element is missing but whose last element is present it raises nothing and
returns a sequence of the same length with every bucket filled, e.g.
[None, 5] yields [5, 5]. -/
theorem linear_interp_boundary_spec :
    (∀ data : List (Option ℚ), data ≠ [] → data.getLast? = some none →
      linear_interp data = .error PyErr.typeError) ∧
    (∀ (data : List (Option ℚ)) (w : ℚ), data.head? = some none →
      data.getLast? = some (some w) →
      ∃ d, linear_interp data = .ok d ∧ d.length = data.length ∧
        ∀ x ∈ d, ∃ u : ℚ, x = some u) ∧
    linear_interp [none, some 5] = .ok [some 5, some 5] := by
  refine ⟨?_, ?_, ?_⟩
  · intro data hne hlast
    unfold linear_interp
    exact lininterp_go_trailing data.length 0 data (by omega)
      (List.length_pos.mpr hne) hlast
  · intro data w hhead hlast
    obtain ⟨d, hd, hdlen, hdall⟩ := lininterp_go_ok data.length 0 data w
      (by omega) hlast (fun k hk => absurd hk (by omega))
    refine ⟨d, hd, hdlen, ?_⟩
    intro x hx
    obtain ⟨k, hk, hke⟩ := List.getElem_of_mem hx
    obtain ⟨u, hu⟩ := hdall k (by omega)
    rw [List.getElem?_eq_getElem hk, hke] at hu
    exact ⟨u, by simpa using hu⟩
  · norm_num [linear_interp, lininterp_go, find_nonempty, lininterp_find,
      lininterp_fill_run, lininterp_fill, pyGet]

/-- Witness for C9: the trailing-gap conjunct applied to [1, None], which
raises a TypeError, and the leading-gap conjunct applied to [None, 5],
which returns a fully filled two-element sequence. -/
theorem linear_interp_boundary_witness :
    linear_interp [some 1, none] = .error PyErr.typeError ∧
    ∃ d, linear_interp [none, some 5] = .ok d ∧
      d.length = ([none, some 5] : List (Option ℚ)).length ∧
      ∀ x ∈ d, ∃ u : ℚ, x = some u :=
  ⟨linear_interp_boundary_spec.1 [some 1, none] (by decide) (by decide),
    linear_interp_boundary_spec.2.1 [none, some 5] 5 (by decide) (by decide)⟩

/-- Helper: in a strictly increasing list the head is a lower bound. -/
theorem chain'_head_le (l : List Nat) (hl : List.Chain' (· < ·) l)
    (h0 : Nat) (hh : l.head? = some h0) : ∀ t ∈ l, h0 ≤ t := by
  match l, hh with
  | a :: tl, hh =>
    have ha : a = h0 := by simpa using hh
    intro t ht
    rcases List.mem_cons.mp ht with rfl | ht'
    · omega
    · have hp : List.Pairwise (· < ·) (a :: tl) := List.chain'_iff_pairwise.mp hl
      have hat := List.rel_of_pairwise_cons hp ht'
      omega

/-- Helper: in a strictly increasing list every element of dropLast is
below the last element. -/
theorem mem_dropLast_lt_getLast (r : List Nat) (hr : List.Chain' (· < ·) r)
    (hne : r ≠ []) : ∀ t ∈ r.dropLast, t < r.getLast hne := by
  have hp : List.Pairwise (· < ·) r := List.chain'_iff_pairwise.mp hr
  rw [← List.dropLast_append_getLast hne, List.pairwise_append] at hp
  intro t ht
  exact hp.2.2 t ht _ (by simp)

/-- Helper: with strictly increasing responses linked by shared boundary
buckets, the head of the first response bounds every bucket below. -/
theorem resampler_elem_lb :
    ∀ (rs : List (List Nat)) (h0 : Nat),
      (∀ r ∈ rs, List.Chain' (· < ·) r) →
      List.Chain' (fun a b => a.getLast? = b.head?) rs →
      (∃ r0, rs.head? = some r0 ∧ r0.head? = some h0) →
      ∀ r ∈ rs, ∀ t ∈ r, h0 ≤ t := by
  intro rs
  induction rs with
  | nil => intro h0 _ _ _ r hr; simp at hr
  | cons r0 rs' ih =>
    intro h0 hmono hlink hex r hr t ht
    obtain ⟨r0', hr0', hh⟩ := hex
    simp at hr0'
    subst hr0'
    rcases List.mem_cons.mp hr with rfl | hr'
    · exact chain'_head_le r (hmono r (by simp)) h0 hh t ht
    · match rs', hr' with
      | r1 :: rs'', hr' =>
        have hR : r0.getLast? = r1.head? := (List.chain'_cons.mp hlink).1
        have hr0ne : r0 ≠ [] := by
          intro hc
          subst hc
          simp at hh
        have hh1 : r1.head? = some (r0.getLast hr0ne) := by
          rw [← hR, List.getLast?_eq_getLast_of_ne_nil hr0ne]
        have hbound := ih (r0.getLast hr0ne)
          (fun r hrm => hmono r (List.mem_cons_of_mem _ hrm))
          hlink.tail ⟨r1, rfl, hh1⟩ r hr' t ht
        have hh0last : h0 ≤ r0.getLast hr0ne :=
          chain'_head_le r0 (hmono r0 (by simp)) h0 hh _ (List.getLast_mem hr0ne)
        omega

/-- Helper: every bucket the stitching loop emits comes from one of the
responses. -/
theorem resampler_loop_mem :
    ∀ (rs : List (List Nat)) (t : Nat),
      t ∈ read_ts_resampled2_loop rs → ∃ r ∈ rs, t ∈ r := by
  intro rs
  induction rs with
  | nil => intro t ht; simp [read_ts_resampled2_loop] at ht
  | cons r rest ih =>
    intro t ht
    by_cases hlen : 1 < r.length
    · rw [read_ts_resampled2_loop, if_pos hlen] at ht
      rcases List.mem_append.mp ht with h | h
      · exact ⟨r, by simp, (List.dropLast_sublist r).subset h⟩
      · obtain ⟨r', hr', ht'⟩ := ih t h
        exact ⟨r', List.mem_cons_of_mem _ hr', ht'⟩
    · rw [read_ts_resampled2_loop, if_neg hlen] at ht
      exact ⟨r, by simp, ht⟩

/-- C1: when every response with more than one bucket ends in the bucket
that starts the next response (the shared boundary created by restarting
the query at the popped bucket), and the final response has zero or one
buckets, the loop emits the concatenation of each earlier response without
its last bucket followed by the final response exactly as returned; the
emitted timestamps are free of duplicates, and every bucket timestamp of
every response appears in the output (hence exactly once). -/
theorem resampler_overlap_trim_spec :
    ∀ (init : List (List Nat)) (fin : List Nat),
      fin.length ≤ 1 →
      (∀ r ∈ init, 1 < r.length) →
      (∀ r ∈ init ++ [fin], List.Chain' (· < ·) r) →
      List.Chain' (fun a b => a.getLast? = b.head?) (init ++ [fin]) →
      read_ts_resampled2_loop (init ++ [fin]) =
          (init.map List.dropLast).flatten ++ fin ∧
        (read_ts_resampled2_loop (init ++ [fin])).Nodup ∧
        (∀ t, t ∈ read_ts_resampled2_loop (init ++ [fin]) ↔
          ∃ r ∈ init ++ [fin], t ∈ r) := by
  intro init
  induction init with
  | nil =>
    intro fin hfin hlong hmono hlink
    have hloop : read_ts_resampled2_loop ([] ++ [fin]) = fin := by
      rw [List.nil_append, read_ts_resampled2_loop, if_neg (by omega)]
    refine ⟨by rw [hloop]; simp, ?_, ?_⟩
    · rw [hloop]
      match fin, hfin with
      | [], _ => exact List.nodup_nil
      | [a], _ => simp
    · intro t
      rw [hloop]
      simp
  | cons r init' ih =>
    intro fin hfin hlong hmono hlink
    have hr_len : 1 < r.length := hlong r (by simp)
    have hr_ne : r ≠ [] := by
      intro hc
      subst hc
      simp at hr_len
    have hca : (r :: init') ++ [fin] = r :: (init' ++ [fin]) := rfl
    have hloop : read_ts_resampled2_loop ((r :: init') ++ [fin]) =
        r.dropLast ++ read_ts_resampled2_loop (init' ++ [fin]) := by
      rw [hca, read_ts_resampled2_loop, if_pos hr_len]
    have hlong' : ∀ r' ∈ init', 1 < r'.length := fun r' h => hlong r' (by simp [h])
    have hmono' : ∀ r' ∈ init' ++ [fin], List.Chain' (· < ·) r' := by
      intro r' h
      exact hmono r' (by rw [hca]; exact List.mem_cons_of_mem _ h)
    have hlink' : List.Chain' (fun a b => a.getLast? = b.head?) (init' ++ [fin]) := by
      have h2 := hlink
      rw [hca] at h2
      exact h2.tail
    obtain ⟨ihEq, ihNodup, ihMem⟩ := ih fin hfin hlong' hmono' hlink'
    obtain ⟨b, rs'', hbrs⟩ := List.exists_cons_of_ne_nil
      (show init' ++ [fin] ≠ [] by simp)
    have hRb : r.getLast? = b.head? := by
      have h2 := hlink
      rw [hca, hbrs, List.chain'_cons] at h2
      exact h2.1
    have hbh : b.head? = some (r.getLast hr_ne) := by
      rw [← hRb, List.getLast?_eq_getLast_of_ne_nil hr_ne]
    have hlb : ∀ t ∈ read_ts_resampled2_loop (init' ++ [fin]),
        r.getLast hr_ne ≤ t := by
      intro t ht
      obtain ⟨r', hr', htin⟩ := resampler_loop_mem _ t ht
      exact resampler_elem_lb (init' ++ [fin]) (r.getLast hr_ne) hmono' hlink'
        ⟨b, by rw [hbrs]; rfl, hbh⟩ r' hr' t htin
    have hmonor : List.Chain' (· < ·) r := hmono r (by simp)
    have hub : ∀ t ∈ r.dropLast, t < r.getLast hr_ne :=
      mem_dropLast_lt_getLast r hmonor hr_ne
    refine ⟨?_, ?_, ?_⟩
    · rw [hloop, ihEq]
      simp [List.append_assoc]
    · rw [hloop, List.nodup_append]
      have hrnodup : r.Nodup := by
        have hp : List.Pairwise (· < ·) r := List.chain'_iff_pairwise.mp hmonor
        exact hp.imp (fun hab => Nat.ne_of_lt hab)
      refine ⟨List.Nodup.sublist (List.dropLast_sublist r) hrnodup, ihNodup, ?_⟩
      intro t ht ht'
      have h1 := hub t ht
      have h2 := hlb t ht'
      omega
    · intro t
      rw [hloop]
      constructor
      · intro ht
        rcases List.mem_append.mp ht with h | h
        · exact ⟨r, by simp, (List.dropLast_sublist r).subset h⟩
        · obtain ⟨r', hr', htin⟩ := (ihMem t).mp h
          exact ⟨r', by rw [hca]; exact List.mem_cons_of_mem _ hr', htin⟩
      · rintro ⟨r', hr', htin⟩
        rw [hca] at hr'
        rcases List.mem_cons.mp hr' with rfl | hr''
        · rw [← List.dropLast_append_getLast hr_ne] at htin
          rcases List.mem_append.mp htin with h | h
          · exact List.mem_append.mpr (Or.inl h)
          · simp at h
            subst h
            have hbmem : r'.getLast hr_ne ∈ b := List.mem_of_mem_head? hbh
            refine List.mem_append.mpr (Or.inr ?_)
            exact (ihMem _).mpr ⟨b, by rw [hbrs]; simp, hbmem⟩
        · exact List.mem_append.mpr (Or.inr ((ihMem t).mpr ⟨r', hr'', htin⟩))

/-- Witness for C1: responses B1..B10 and B10..B18 (shared boundary B10)
followed by the exhausted one-bucket response B18: the emitted output has
no duplicate timestamps. -/
theorem resampler_overlap_trim_witness :
    (read_ts_resampled2_loop
      [[1, 2, 3, 4, 5, 6, 7, 8, 9, 10],
       [10, 11, 12, 13, 14, 15, 16, 17, 18], [18]]).Nodup :=
  (resampler_overlap_trim_spec
    [[1, 2, 3, 4, 5, 6, 7, 8, 9, 10], [10, 11, 12, 13, 14, 15, 16, 17, 18]]
    [18] (by decide) (by decide) (by simp [List.chain'_cons])
    (by simp [List.chain'_cons])).2.1
